import Mathlib

/-!
Verification development for the chromatogram extraction and peak-region
engine of `utils.py` (DIA-MS chromatogram extraction).

The Python source is shallowly embedded: machine floats are modelled as
exact rationals (`ℚ`), NumPy arrays as `List ℚ`, and fallible operations
(Python exceptions) as `Option`.  Each definition is translated directly
from the corresponding function in `src/utils.py`; deviations forced by
the embedding are noted in the doc comments.
-/

/-- Python `bisect.bisect_left(l, x)` on an ascending list `l`: the number
of elements strictly below `x` (the left insertion point). -/
def bisect_left (l : List ℚ) (x : ℚ) : ℕ :=
  l.countP (fun y => decide (y < x))

/-- Python `bisect.bisect(l, x)` (= `bisect_right`) on an ascending list
`l`: the number of elements `≤ x` (the right insertion point). -/
def bisect_right (l : List ℚ) (x : ℚ) : ℕ :=
  l.countP (fun y => decide (y ≤ x))

/-- `calc_win_id(precursor_mz, win_range)` from `utils.py`:
`bisect.bisect(win_range[:,0], precursor_mz) - 1`.  The first column of
`win_range` is the list of window lower bounds.  The result is an integer
and can be `-1` when `precursor_mz` is below every lower bound. -/
def calc_win_id (precursor_mz : ℚ) (win_range : List (ℚ × ℚ)) : ℤ :=
  (bisect_right (win_range.map Prod.fst) precursor_mz : ℤ) - 1

/-- Python list indexing semantics: a negative index `i` means `len + i`.
The result is only a valid position when `0 ≤ pyNorm i len < len`;
otherwise Python raises `IndexError`. -/
def pyNorm (i : ℤ) (len : ℕ) : ℤ :=
  if i < 0 then i + len else i

/-- Python `range(a, b)` as a list of integers. -/
def pyRange (a b : ℤ) : List ℤ :=
  (List.range (b - a).toNat).map (fun i : ℕ => a + (i : ℤ))

/-- One raw scan record, as read from the mzXML/mzML stream: MS level,
retention time (in the raw file's unit), precursor m/z (meaningful only for
level-2 scans), and the pairwise aligned m/z / intensity arrays. -/
structure Scan where
  level : ℕ
  rt : ℚ
  precursor_mz : ℚ
  mz_array : List ℚ
  intensity_array : List ℚ
deriving DecidableEq

/-- `filter_spectrum(spectrum, mz_min, mz_max)` from `utils.py`: drop
entries with intensity `≤ 0`, then keep entries with m/z in
`[mz_min, mz_max)`.  The two parallel NumPy arrays are modelled as a pair
of lists masked through their zip. -/
def filter_spectrum (mz_array intensity_array : List ℚ) (mz_min mz_max : ℚ) :
    List ℚ × List ℚ :=
  let pairs := (mz_array.zip intensity_array).filter (fun p => decide (0 < p.2))
  let ranged := pairs.filter (fun p => decide (mz_min ≤ p.1 ∧ p.1 < mz_max))
  (ranged.map Prod.fst, ranged.map Prod.snd)

/-- The `MS1_Chrom` class from `utils.py`. -/
structure MS1_Chrom where
  rt_list : List ℚ
  spectra : List (List ℚ × List ℚ)
deriving DecidableEq

/-- The `MS2_Chrom` class from `utils.py`. -/
structure MS2_Chrom where
  win_id : ℕ
  win_min : ℚ
  win_max : ℚ
  rt_list : List ℚ
  spectra : List (List ℚ × List ℚ)
deriving DecidableEq

/-- `ms2[win_id].rt_list.append(RT); ms2[win_id].spectra.append(...)`:
append one (retention time, filtered spectrum) entry to an MS2 window
chromatogram. -/
def append_entry (c : MS2_Chrom) (rt : ℚ) (sp : List ℚ × List ℚ) : MS2_Chrom :=
  { c with rt_list := c.rt_list ++ [rt], spectra := c.spectra ++ [sp] }

/-- The scan loop of `load_rawdata` (`for idx, spectrum in enumerate(...)`).
`rt` is the Python variable `RT`, which persists across loop iterations:
it is assigned on every level-1 scan (`RT = 60 * ...`) and by the
`if idx == 0: RT = 0` branch of the level-2 case, and is otherwise reused.
`none` for `rt` models the state in which `RT` has never been assigned
(reading it would be a Python `NameError`, modelled as an aborted build);
an out-of-Python-range window index (`IndexError`) likewise aborts. -/
def scan_loop (wins : List (ℚ × ℚ)) (mz_min mz_max : ℚ) :
    ℕ → Option ℚ → MS1_Chrom → List MS2_Chrom → List Scan →
    Option (MS1_Chrom × List MS2_Chrom)
  | _, _, ms1, ms2, [] => some (ms1, ms2)
  | idx, rt, ms1, ms2, s :: rest =>
    if s.level = 1 then
      let RT := 60 * s.rt
      let filt := filter_spectrum s.mz_array s.intensity_array mz_min mz_max
      scan_loop wins mz_min mz_max (idx + 1) (some RT)
        ⟨ms1.rt_list ++ [RT], ms1.spectra ++ [filt]⟩ ms2 rest
    else if s.level = 2 then
      match (if idx = 0 then some (0 : ℚ) else rt) with
      | none => none
      | some RT =>
        let filt := filter_spectrum s.mz_array s.intensity_array mz_min mz_max
        let j := pyNorm (calc_win_id s.precursor_mz wins) ms2.length
        if 0 ≤ j ∧ j < (ms2.length : ℤ) then
          scan_loop wins mz_min mz_max (idx + 1) (some RT) ms1
            (ms2.set j.toNat (append_entry (ms2.getD j.toNat ⟨0, 0, 0, [], []⟩) RT filt))
            rest
        else none
    else scan_loop wins mz_min mz_max (idx + 1) rt ms1 ms2 rest

/-- Python `list == int` comparison: a list is never equal to an integer,
so the comparison `each_ms2.rt_list == 0` in `load_rawdata` is always
`False` (it does not index into the list). -/
def py_list_eq_int (_l : List ℚ) (_n : ℤ) : Bool :=
  false

/-- The first boundary correction of `load_rawdata` (comment in the source:
"If the data start with MS2"): for each MS2 chromatogram, if its length
exceeds the MS1 length by exactly one AND `each_ms2.rt_list == 0`, pop the
first entry.  The second conjunct is the source's literal (list-to-int)
comparison, which is always `False`. -/
def lead_fix (ms1 : MS1_Chrom) (ms2 : List MS2_Chrom) : List MS2_Chrom :=
  ms2.map (fun c =>
    if ((c.rt_list.length : ℤ) - (ms1.rt_list.length : ℤ) = 1)
        ∧ py_list_eq_int c.rt_list 0 = true then
      { c with rt_list := c.rt_list.tail, spectra := c.spectra.tail }
    else c)

/-- The second boundary correction of `load_rawdata` ("If the last cycle is
imcomplete"): on the first MS2 chromatogram that is exactly one entry
shorter than MS1, record its length, pop the last entry of every MS2
chromatogram longer than it and of MS1, then break out of the loop. -/
def trail_fix (ms1 : MS1_Chrom) (ms2 : List MS2_Chrom) :
    MS1_Chrom × List MS2_Chrom :=
  match ms2.find? (fun c =>
      decide ((ms1.rt_list.length : ℤ) - (c.rt_list.length : ℤ) = 1)) with
  | none => (ms1, ms2)
  | some c =>
    let shorter_length := c.rt_list.length
    (⟨ms1.rt_list.dropLast, ms1.spectra.dropLast⟩,
      ms2.map (fun d =>
        if shorter_length < d.rt_list.length then
          { d with rt_list := d.rt_list.dropLast, spectra := d.spectra.dropLast }
        else d))

/-- `load_rawdata(rawdata_file, win_file, mz_min, mz_max)` from `utils.py`,
with the file-format dispatch (mzXML/mzML readers, `UnsupportedFormat`)
abstracted away: the raw reader is modelled as the list of scan records it
yields, and the window file as the list of (lower, upper) bounds already
loaded.  The body is the enumerated scan loop followed by the two boundary
corrections. -/
def load_rawdata (scans : List Scan) (win_range : List (ℚ × ℚ))
    (mz_min mz_max : ℚ) : Option (MS1_Chrom × List MS2_Chrom) :=
  let ms1 : MS1_Chrom := ⟨[], []⟩
  let ms2 : List MS2_Chrom :=
    win_range.enum.map (fun p => ⟨p.1, p.2.1, p.2.2, [], []⟩)
  (scan_loop win_range mz_min mz_max 0 none ms1 ms2 scans).map
    (fun r => trail_fix r.1 (lead_fix r.1 r.2))

/-- `calc_XIC(spectra, mz_to_extract, mz_unit, mz_tol)` from `utils.py`.
For unit `"Da"` the extraction window is `mz ± tol/2`; for `"ppm"` the
tolerance is first converted via `mz * tol * 0.000001`.  Any other unit
leaves `extract_width` unassigned in Python (`NameError`), modelled as
`none`.  Each cycle's value is the sum of the intensity slice between the
left and right bisection points of the window bounds. -/
def calc_XIC (spectra : List (List ℚ × List ℚ)) (mz_to_extract : ℚ)
    (mz_unit : String) (mz_tol : ℚ) : Option (List ℚ) :=
  let width : Option (ℚ × ℚ) :=
    if mz_unit = "Da" then
      some (mz_to_extract - mz_tol / 2, mz_to_extract + mz_tol / 2)
    else if mz_unit = "ppm" then
      let mz_tol_da := mz_to_extract * mz_tol * (1 / 1000000)
      some (mz_to_extract - mz_tol_da / 2, mz_to_extract + mz_tol_da / 2)
    else none
  width.map (fun w =>
    spectra.map (fun c =>
      ((c.2.drop (bisect_left c.1 w.1)).take
        (bisect_right c.1 w.2 - bisect_left c.1 w.1)).sum))

/-- Sum of the intensities whose m/z lies in the inclusive window
`[lo, hi]`.  This is the specification-side description of one cycle of
`calc_XIC`, to be compared with the slice-sum computed by the source. -/
def xic_window_sum (mz_array intensity_array : List ℚ) (lo hi : ℚ) : ℚ :=
  (((mz_array.zip intensity_array).filter
      (fun p => decide (lo ≤ p.1 ∧ p.1 ≤ hi))).map Prod.snd).sum

/-- Minimum of a list of rationals (`np.min` on a nonempty array),
`none` on the empty list. -/
def list_min : List ℚ → Option ℚ
  | [] => none
  | x :: xs =>
    match list_min xs with
    | none => some x
    | some m => some (min x m)

/-- Maximum of a list of rationals (`np.max` on a nonempty array),
`none` on the empty list. -/
def list_max : List ℚ → Option ℚ
  | [] => none
  | x :: xs =>
    match list_max xs with
    | none => some x
    | some m => some (max x m)

/-- `filter_matrix(matrix)` from `utils.py`.  Filter 1 keeps rows with
total intensity `≥ 200`.  Filter 2 computes, per surviving row, the row
maximum and the row minimum after substituting `np.inf` for zeros, and
keeps rows with `max / min ≥ 1.5`.  The zero-to-infinity substitution is
modelled by taking the minimum over the nonzero entries; if a row has no
nonzero entry its minimum is `np.inf` and the float ratio is
`0 / inf = 0.0 < 1.5`, so the row is dropped — the `false` branches below. -/
def filter_matrix (matrix : List (List ℚ)) : List (List ℚ) :=
  let m1 := matrix.filter (fun r => decide ((200 : ℚ) ≤ r.sum))
  m1.filter (fun r =>
    match list_max r, list_min (r.filter (fun x => decide (x ≠ 0))) with
    | some mx, some mn => decide ((3 / 2 : ℚ) ≤ mx / mn)
    | _, _ => false)

/-- `np.argsort` (ascending) of a list of rationals, modelled as a stable
sort of the index list `[0, ..., len-1]` by value.  NumPy's default
introsort degenerates to a stable insertion sort on small arrays, and ties
in the model keep ascending index order, mirroring that behaviour. -/
def np_argsort (l : List ℚ) : List ℕ :=
  List.insertionSort (fun i j => l.getD i 0 ≤ l.getD j 0) (List.range l.length)

/-- `adjust_size(frag_matrix, n_frags)` from `utils.py`: if the matrix has
more than `n_frags` rows, keep the rows selected by
`frag_sum.argsort()[::-1][0:n_frags]` (reversed ascending argsort of the
row sums, truncated), otherwise return the matrix unchanged. -/
def adjust_size (frag_matrix : List (List ℚ)) (n_frags : ℕ) : List (List ℚ) :=
  if n_frags < frag_matrix.length then
    let frag_sum := frag_matrix.map List.sum
    let frag_selected := (np_argsort frag_sum).reverse.take n_frags
    frag_selected.map (fun i => frag_matrix.getD i [])
  else frag_matrix

/-- `np.argmin` of a list of rationals: the index of the first occurrence
of the minimum (NumPy returns the first occurrence). -/
def np_argmin : List ℚ → ℕ
  | [] => 0
  | [_] => 0
  | x :: y :: ys =>
    let m := np_argmin (y :: ys)
    if x ≤ (y :: ys).getD m 0 then 0 else m + 1

/-- `find_rt_pos(RT, rt_list, n_cycles)` from `utils.py`: locate the index
of the retention time closest to `RT`, expand by `n_cycles // 2` on each
side (one more on the right for odd `n_cycles`), and clamp to
`range(n_cycles)` when the window starts below 0, or to
`range(len - n_cycles, len)` when it ends past the list length.  Indices
are integers: with a short list the clamped ranges can leave `[0, len)`. -/
def find_rt_pos (RT : ℚ) (rt_list : List ℚ) (n_cycles : ℕ) : List ℤ :=
  let middle_pos : ℤ := np_argmin (rt_list.map (fun x => |x - RT|))
  let expand_range : ℤ := ((n_cycles / 2 : ℕ) : ℤ)
  let start_pos := middle_pos - expand_range
  let end_pos :=
    if n_cycles % 2 = 0 then middle_pos + expand_range
    else middle_pos + expand_range + 1
  if start_pos < 0 then pyRange 0 n_cycles
  else if (rt_list.length : ℤ) < end_pos then
    pyRange ((rt_list.length : ℤ) - n_cycles) rt_list.length
  else pyRange start_pos end_pos

/-- One iteration of the `for i in range(peak_index_range - 1)` loop of
`get_peak_indice`: for odd `n_cycles` append the symmetric pair
`center - (i+1), center + (i+1)`; for even `n_cycles` append
`center - (i+1)` and, only when `i` is nonzero (Python `if i:`),
`center + i`. -/
def peak_step (n_cycles : ℕ) (acc : List ℤ) (i : ℕ) : List ℤ :=
  if n_cycles % 2 ≠ 0 then
    acc ++ [((n_cycles / 2 : ℕ) : ℤ) - ((i : ℤ) + 1),
            ((n_cycles / 2 : ℕ) : ℤ) + ((i : ℤ) + 1)]
  else
    (acc ++ [((n_cycles / 2 : ℕ) : ℤ) - ((i : ℤ) + 1)])
      ++ (if i ≠ 0 then [((n_cycles / 2 : ℕ) : ℤ) + (i : ℤ)] else [])

/-- `get_peak_indice(n_cycles, peak_index_range)` from `utils.py`: start
from the center offset `n_cycles // 2` and run the expansion loop
`peak_index_range - 1` times. -/
def get_peak_indice (n_cycles peak_index_range : ℕ) : List ℤ :=
  (List.range (peak_index_range - 1)).foldl (peak_step n_cycles)
    [((n_cycles / 2 : ℕ) : ℤ)]

/-!
Helper lemmas shared by several claims.
-/

/-- Folding `peak_step` over any index range keeps the initial head and
grows the accumulator by two entries per step for odd `n_cycles`, and by
`j + (j - 1)` entries over `j` steps for even `n_cycles`. -/
lemma peak_foldl_structure (n : ℕ) (x : ℤ) (t : List ℤ) (j : ℕ) :
    ∃ t', (List.range j).foldl (peak_step n) (x :: t) = x :: t'
      ∧ t'.length = t.length + (if n % 2 = 1 then 2 * j else j + (j - 1)) := by
  induction j with
  | zero => exact ⟨t, rfl, by split <;> omega⟩
  | succ k ih =>
    obtain ⟨t', ht', hlen⟩ := ih
    rw [List.range_succ, List.foldl_append, ht']
    simp only [List.foldl_cons, List.foldl_nil, peak_step]
    rcases Nat.mod_two_eq_zero_or_one n with hn | hn
    · rw [if_neg (by omega : ¬n % 2 ≠ 0)]
      by_cases hk : k = 0
      · subst hk
        rw [if_neg (by omega : ¬(0 : ℕ) ≠ 0)]
        refine ⟨t' ++ [((n / 2 : ℕ) : ℤ) - ((0 : ℤ) + 1)], by simp, ?_⟩
        rw [if_neg (by omega : ¬n % 2 = 1)] at hlen ⊢
        simp only [List.length_append, List.length_cons, List.length_nil]
        omega
      · rw [if_pos hk]
        refine ⟨t' ++ [((n / 2 : ℕ) : ℤ) - ((k : ℤ) + 1)]
          ++ [((n / 2 : ℕ) : ℤ) + (k : ℤ)], by simp, ?_⟩
        rw [if_neg (by omega : ¬n % 2 = 1)] at hlen ⊢
        simp only [List.length_append, List.length_cons, List.length_nil]
        omega
    · rw [if_pos (by omega : n % 2 ≠ 0)]
      refine ⟨t' ++ [((n / 2 : ℕ) : ℤ) - ((k : ℤ) + 1),
        ((n / 2 : ℕ) : ℤ) + ((k : ℤ) + 1)], by simp, ?_⟩
      rw [if_pos hn] at hlen ⊢
      simp only [List.length_append, List.length_cons, List.length_nil]
      omega

/-- The first index of the minimum is a valid index. -/
lemma np_argmin_lt_length (l : List ℚ) (h : l ≠ []) : np_argmin l < l.length := by
  induction l with
  | nil => simp at h
  | cons x xs ih =>
    cases xs with
    | nil => simp [np_argmin]
    | cons y ys =>
      simp only [np_argmin]
      split
      · simp
      · have := ih (by simp)
        simp only [List.length_cons] at this ⊢
        omega

/-- The element at the `np_argmin` index is a lower bound of the list. -/
lemma np_argmin_le_mem (l : List ℚ) : ∀ z ∈ l, l.getD (np_argmin l) 0 ≤ z := by
  induction l with
  | nil => simp
  | cons x xs ih =>
    cases xs with
    | nil =>
      intro z hz
      simp only [List.mem_singleton] at hz
      subst hz
      simp [np_argmin]
    | cons y ys =>
      intro z hz
      simp only [np_argmin]
      split
      · rename_i hx
        simp only [List.getD_cons_zero]
        rcases List.mem_cons.mp hz with rfl | hz'
        · exact le_refl z
        · exact le_trans hx (ih z hz')
      · rename_i hx
        push_neg at hx
        simp only [List.getD_cons_succ]
        rcases List.mem_cons.mp hz with rfl | hz'
        · exact le_of_lt hx
        · exact ih z hz'

/-!
Claim C7 — `get_peak_indice`.
-/

/-- C7 (counterexample): the claim "the length of the returned sequence
never exceeds peak_index_range" fails at `n_cycles = 5`,
`peak_index_range = 3`: the sequence is `[2, 1, 3, 0, 4]` of length 5. -/
theorem get_peak_indice_length_exceeds_range :
    get_peak_indice 5 3 = [2, 1, 3, 0, 4]
      ∧ ¬((get_peak_indice 5 3).length ≤ 3) := by
  constructor
  · decide
  · decide

/-- C7 (amended): for `peak_index_range ≥ 1` the offset sequence returned
by `get_peak_indice` begins with the exact center offset `n_cycles // 2`,
and its length is `2 * peak_index_range - 1` for odd `n_cycles` and
`max 1 (2 * peak_index_range - 2)` for even `n_cycles` — so it can exceed
`peak_index_range`, which the loop never checks. -/
theorem get_peak_indice_head_and_length (n_cycles peak_index_range : ℕ)
    (h : 1 ≤ peak_index_range) :
    (get_peak_indice n_cycles peak_index_range).head?
        = some ((n_cycles / 2 : ℕ) : ℤ)
    ∧ (get_peak_indice n_cycles peak_index_range).length
        = (if n_cycles % 2 = 1 then 2 * peak_index_range - 1
           else max 1 (2 * peak_index_range - 2)) := by
  obtain ⟨t', ht', hlen⟩ :=
    peak_foldl_structure n_cycles ((n_cycles / 2 : ℕ) : ℤ) []
      (peak_index_range - 1)
  rw [get_peak_indice, ht']
  refine ⟨rfl, ?_⟩
  simp only [List.length_nil, List.length_cons] at hlen ⊢
  split at hlen <;> split <;> omega

/-- C7 (witness for the amended theorem): instantiation at
`n_cycles = 5`, `peak_index_range = 3`. -/
theorem get_peak_indice_head_and_length_witness :
    (get_peak_indice 5 3).head? = some ((5 / 2 : ℕ) : ℤ)
    ∧ (get_peak_indice 5 3).length
        = (if 5 % 2 = 1 then 2 * 3 - 1 else max 1 (2 * 3 - 2)) :=
  get_peak_indice_head_and_length 5 3 (by decide)

/-!
Claim C8 — `filter_matrix` on an all-zero row.
-/

/-- C8: an all-zero row is deterministically excluded from
`filter_matrix`'s output (its total intensity 0 already fails the `≥ 200`
filter), and every row that reaches the ratio filter has a nonzero entry,
so the minimum of the ratio test is never taken over an empty (all-zero)
set and the degenerate `0/0` comparison is never evaluated. -/
theorem filter_matrix_excludes_zero_row (matrix : List (List ℚ))
    (row : List ℚ) (hz : ∀ x ∈ row, x = 0) :
    row ∉ filter_matrix matrix
    ∧ ∀ r ∈ matrix.filter (fun r => decide ((200 : ℚ) ≤ r.sum)),
        r.filter (fun x => decide (x ≠ 0)) ≠ []
        ∧ (list_min (r.filter (fun x => decide (x ≠ 0)))).isSome = true := by
  have key : ∀ r : List ℚ, (200 : ℚ) ≤ r.sum →
      r.filter (fun x => decide (x ≠ 0)) ≠ [] := by
    intro r hr hnil
    have hall : ∀ x ∈ r, x = 0 := by
      intro x hx
      by_contra hx0
      have hmem : x ∈ r.filter (fun x => decide (x ≠ 0)) :=
        List.mem_filter.mpr ⟨hx, by simpa using hx0⟩
      rw [hnil] at hmem
      simp at hmem
    have : r.sum = 0 := List.sum_eq_zero hall
    rw [this] at hr
    norm_num at hr
  constructor
  · intro hmem
    simp only [filter_matrix] at hmem
    have h1 := List.mem_filter.mp hmem
    have h200 : (200 : ℚ) ≤ row.sum := by
      simpa using (List.mem_filter.mp h1.1).2
    exact key row h200 (by
      apply List.filter_eq_nil_iff.mpr
      intro x hx
      simp [hz x hx])
  · intro r hr
    have h200 : (200 : ℚ) ≤ r.sum := by
      simpa using (List.mem_filter.mp hr).2
    refine ⟨key r h200, ?_⟩
    cases hfil : r.filter (fun x => decide (x ≠ 0)) with
    | nil => exact absurd hfil (key r h200)
    | cons a as =>
      rw [list_min]
      cases list_min as <;> simp

/-- C8 (witness): instantiation at the matrix `[[0,0],[100,200]]` with the
all-zero row `[0,0]`. -/
theorem filter_matrix_excludes_zero_row_witness :
    ([0, 0] : List ℚ) ∉ filter_matrix [[0, 0], [100, 200]]
    ∧ ∀ r ∈ ([[0, 0], [100, 200]] : List (List ℚ)).filter
          (fun r => decide ((200 : ℚ) ≤ r.sum)),
        r.filter (fun x => decide (x ≠ 0)) ≠ []
        ∧ (list_min (r.filter (fun x => decide (x ≠ 0)))).isSome = true :=
  filter_matrix_excludes_zero_row [[0, 0], [100, 200]] [0, 0]
    (by intro x hx; simpa using hx)

/-!
Claim C5 — `calc_XIC` with unit `"ppm"`.
-/

/-- Unfolding of the specification-side window sum over a cons cell. -/
lemma xic_window_sum_cons (a b lo hi : ℚ) (mz inten : List ℚ) :
    xic_window_sum (a :: mz) (b :: inten) lo hi
      = (if lo ≤ a ∧ a ≤ hi then b + xic_window_sum mz inten lo hi
         else xic_window_sum mz inten lo hi) := by
  simp only [xic_window_sum, List.zip_cons_cons, List.filter_cons]
  split
  · rename_i hcond
    rw [if_pos (by simpa using hcond)]
    simp
  · rename_i hcond
    rw [if_neg (by simpa using hcond)]

/-- The window sum vanishes when every m/z lies above the window. -/
lemma xic_window_sum_of_gt (mz : List ℚ) (inten : List ℚ) (lo hi : ℚ)
    (h : ∀ y ∈ mz, hi < y) : xic_window_sum mz inten lo hi = 0 := by
  induction mz generalizing inten with
  | nil => simp [xic_window_sum]
  | cons a mz' ih =>
    cases inten with
    | nil => simp [xic_window_sum]
    | cons b inten' =>
      rw [xic_window_sum_cons,
        if_neg (by push_neg; intro _; exact h a (by simp))]
      exact ih inten' (fun y hy => h y (List.mem_cons_of_mem a hy))

/-- Key refinement lemma for `calc_XIC`: on an ascending m/z array with an
aligned intensity array, the slice between the left bisection point of
`lo` and the right bisection point of `hi` sums exactly the intensities
whose m/z lies in the inclusive window `[lo, hi]`. -/
lemma slice_sum_eq_window_sum (mz : List ℚ) (inten : List ℚ) (lo hi : ℚ)
    (hs : mz.Sorted (· ≤ ·)) (hl : mz.length = inten.length) :
    ((inten.drop (bisect_left mz lo)).take
      (bisect_right mz hi - bisect_left mz lo)).sum
      = xic_window_sum mz inten lo hi := by
  induction mz generalizing inten with
  | nil =>
    cases inten with
    | nil => simp [bisect_left, bisect_right, xic_window_sum]
    | cons b bs => simp at hl
  | cons a mz' ih =>
    cases inten with
    | nil => simp at hl
    | cons b inten' =>
      have hl' : mz'.length = inten'.length := by simpa using hl
      obtain ⟨ha, hs'⟩ := List.pairwise_cons.mp hs
      by_cases h1 : a < lo
      · have hbl : bisect_left (a :: mz') lo = bisect_left mz' lo + 1 := by
          simp [bisect_left, List.countP_cons, h1]
        by_cases h2 : a ≤ hi
        · have hbr : bisect_right (a :: mz') hi = bisect_right mz' hi + 1 := by
            simp [bisect_right, List.countP_cons, h2]
          rw [hbl, hbr, Nat.add_sub_add_right, List.drop_succ_cons,
            ih inten' hs' hl', xic_window_sum_cons,
            if_neg (by push_neg; intro hlo; exact absurd hlo (not_le.mpr h1))]
        · have hbr : bisect_right (a :: mz') hi = 0 := by
            apply List.countP_eq_zero.mpr
            intro y hy
            rcases List.mem_cons.mp hy with rfl | hy'
            · simpa using h2
            · simp only [decide_eq_true_eq, not_le]
              exact lt_of_not_le h2 |>.trans_le (ha y hy')
          rw [hbl, hbr, Nat.zero_sub, List.take_zero, List.sum_nil,
            xic_window_sum_cons,
            if_neg (by push_neg; intro hlo; exact absurd hlo (not_le.mpr h1))]
          exact (xic_window_sum_of_gt mz' inten' lo hi
            (fun y hy => lt_of_lt_of_le (lt_of_not_le h2) (ha y hy))).symm
      · have hbl : bisect_left (a :: mz') lo = 0 := by
          apply List.countP_eq_zero.mpr
          intro y hy
          rcases List.mem_cons.mp hy with rfl | hy'
          · simpa using h1
          · simp only [decide_eq_true_eq, not_lt]
            exact le_trans (le_of_not_lt h1) (ha y hy')
        have hbl' : bisect_left mz' lo = 0 := by
          apply List.countP_eq_zero.mpr
          intro y hy
          simp only [decide_eq_true_eq, not_lt]
          exact le_trans (le_of_not_lt h1) (ha y hy)
        by_cases h2 : a ≤ hi
        · have hbr : bisect_right (a :: mz') hi = bisect_right mz' hi + 1 := by
            simp [bisect_right, List.countP_cons, h2]
          have hih := ih inten' hs' hl'
          rw [hbl'] at hih
          simp only [List.drop_zero, Nat.sub_zero] at hih
          rw [hbl, hbr, List.drop_zero, Nat.sub_zero, List.take_succ_cons,
            List.sum_cons, hih, xic_window_sum_cons,
            if_pos ⟨le_of_not_lt h1, h2⟩]
        · have hbr : bisect_right (a :: mz') hi = 0 := by
            apply List.countP_eq_zero.mpr
            intro y hy
            rcases List.mem_cons.mp hy with rfl | hy'
            · simpa using h2
            · simp only [decide_eq_true_eq, not_le]
              exact lt_of_not_le h2 |>.trans_le (ha y hy')
          rw [hbl, hbr, List.take_zero, List.sum_nil, xic_window_sum_cons,
            if_neg (by push_neg; intro _; exact lt_of_not_le h2)]
          exact (xic_window_sum_of_gt mz' inten' lo hi
            (fun y hy => lt_of_lt_of_le (lt_of_not_le h2) (ha y hy))).symm

/-- C5: for unit `"ppm"`, `calc_XIC` computes, for each cycle with an
ascending m/z array aligned with its intensity array, the sum of the
intensities whose m/z lies in the inclusive window
`[mz - (mz*tol*1e-6)/2, mz + (mz*tol*1e-6)/2]`; in particular, extraction
at `mz_to_extract = 500`, `tol = 20` ppm on the cycle with m/z
`[499.99, 500.0, 500.02]` and intensities `[5, 7, 3]` yields 7. -/
theorem calc_XIC_ppm_inclusive_window (spectra : List (List ℚ × List ℚ))
    (mz_to_extract mz_tol : ℚ)
    (hs : ∀ c ∈ spectra, c.1.Sorted (· ≤ ·) ∧ c.1.length = c.2.length) :
    calc_XIC spectra mz_to_extract "ppm" mz_tol
      = some (spectra.map (fun c =>
          xic_window_sum c.1 c.2
            (mz_to_extract - mz_to_extract * mz_tol * (1 / 1000000) / 2)
            (mz_to_extract + mz_to_extract * mz_tol * (1 / 1000000) / 2)))
    ∧ calc_XIC [([49999/100, 500, 50002/100], [5, 7, 3])] 500 "ppm" 20
      = some [7] := by
  constructor
  · simp only [calc_XIC, String.reduceEq, reduceIte, Option.map_some']
    congr 1
    apply List.map_congr_left
    intro c hc
    exact slice_sum_eq_window_sum c.1 c.2 _ _ (hs c hc).1 (hs c hc).2
  · simp only [calc_XIC, bisect_left, bisect_right, String.reduceEq,
      reduceIte, List.countP_cons, List.countP_nil, Option.map_some']
    norm_num

/-- C5 (witness): the theorem instantiated at the claim's concrete cycle. -/
theorem calc_XIC_ppm_inclusive_window_witness :
    calc_XIC [([49999/100, 500, 50002/100], [5, 7, 3])] 500 "ppm" 20
      = some [7] :=
  (calc_XIC_ppm_inclusive_window [([49999/100, 500, 50002/100], [5, 7, 3])]
    500 20 (by
      intro c hc
      simp only [List.mem_singleton] at hc
      subst hc
      exact ⟨by norm_num [List.sorted_cons], rfl⟩)).2

/-!
Claims C6 and C10 — `find_rt_pos`.
-/

/-- A `pyRange` of integer width `n` is the `n`-element consecutive run
starting at its left endpoint. -/
lemma pyRange_map (a b : ℤ) (n : ℕ) (h : b - a = n) :
    pyRange a b = (List.range n).map (fun i : ℕ => a + (i : ℤ)) := by
  simp [pyRange, h]

/-- The branch conditions of `find_rt_pos` in a uniform shape: for either
parity of `n_cycles`, the exclusive end position equals the start position
plus `n_cycles`. -/
lemma find_rt_pos_end_eq (m : ℤ) (n : ℕ) :
    (if n % 2 = 0 then m + ((n / 2 : ℕ) : ℤ) else m + ((n / 2 : ℕ) : ℤ) + 1)
      = (m - ((n / 2 : ℕ) : ℤ)) + (n : ℤ) := by
  split <;> omega

/-- The mapped distance list evaluates pointwise, for valid indices. -/
lemma getD_map_abs (l : List ℚ) (RT : ℚ) (k : ℕ) (hk : k < l.length) :
    (l.map (fun x => |x - RT|)).getD k 0 = |l.getD k RT - RT| := by
  rw [List.getD_eq_getElem _ _ (by simpa using hk), List.getElem_map,
    List.getD_eq_getElem _ _ hk]

/-- C6: for `1 ≤ n_cycles ≤ len(rt_list)`, `find_rt_pos` returns the
contiguous run of `n_cycles` indices starting at the center position
`middle - n_cycles // 2` clamped into `[0, len - n_cycles]`, entirely
inside `[0, len)`, where `middle` is the first index minimizing the
absolute retention-time difference; in particular
`find_rt_pos 21 [0,10,20,30,40] 3 = [1, 2, 3]`. -/
theorem find_rt_pos_centered_window (RT : ℚ) (l : List ℚ) (n : ℕ)
    (h1 : 1 ≤ n) (h2 : n ≤ l.length) :
    (∃ s : ℕ,
      find_rt_pos RT l n = (List.range n).map (fun i : ℕ => (s : ℤ) + (i : ℤ))
      ∧ s + n ≤ l.length
      ∧ (s : ℤ) = max 0 (min ((np_argmin (l.map (fun x => |x - RT|)) : ℤ)
            - ((n / 2 : ℕ) : ℤ)) ((l.length : ℤ) - (n : ℤ)))
      ∧ ∀ j, j < l.length →
          |l.getD (np_argmin (l.map (fun x => |x - RT|))) RT - RT|
            ≤ |l.getD j RT - RT|)
    ∧ find_rt_pos 21 [0, 10, 20, 30, 40] 3 = [1, 2, 3] := by
  constructor
  · have hlnil : l ≠ [] := by
      intro hmt
      rw [hmt] at h2
      simp at h2
      omega
    have hmlt : np_argmin (l.map (fun x => |x - RT|)) < l.length := by
      have := np_argmin_lt_length (l.map (fun x => |x - RT|))
        (by simpa using hlnil)
      simpa using this
    set m := np_argmin (l.map (fun x => |x - RT|)) with hm
    have hclose : ∀ j, j < l.length →
        |l.getD m RT - RT| ≤ |l.getD j RT - RT| := by
      intro j hj
      have hz : (l.map (fun x => |x - RT|)).getD j 0
          ∈ l.map (fun x => |x - RT|) := by
        rw [List.getD_eq_getElem _ _ (by simpa using hj)]
        exact List.getElem_mem _
      have := np_argmin_le_mem (l.map (fun x => |x - RT|)) _ hz
      rw [← hm, getD_map_abs l RT m hmlt, getD_map_abs l RT j hj] at this
      exact this
    simp only [find_rt_pos, ← hm, find_rt_pos_end_eq]
    by_cases ha : (m : ℤ) - ((n / 2 : ℕ) : ℤ) < 0
    · rw [if_pos ha]
      refine ⟨0, ?_, by omega, ?_, hclose⟩
      · rw [pyRange_map 0 n n (by omega)]
        norm_num
      · have : (n : ℤ) ≤ (l.length : ℤ) := by exact_mod_cast h2
        omega
    · rw [if_neg ha]
      by_cases hb : (l.length : ℤ) < (m : ℤ) - ((n / 2 : ℕ) : ℤ) + (n : ℤ)
      · rw [if_pos hb]
        refine ⟨l.length - n, ?_, by omega, ?_, hclose⟩
        · rw [pyRange_map ((l.length : ℤ) - n) (l.length) n (by ring)]
          have hcast : ((l.length - n : ℕ) : ℤ) = (l.length : ℤ) - (n : ℤ) := by
            omega
          rw [hcast]
        · omega
      · rw [if_neg hb]
        refine ⟨m - n / 2, ?_, ?_, ?_, hclose⟩
        · rw [pyRange_map ((m : ℤ) - ((n / 2 : ℕ) : ℤ))
            ((m : ℤ) - ((n / 2 : ℕ) : ℤ) + (n : ℤ)) n (by ring)]
          have hcast : ((m - n / 2 : ℕ) : ℤ) = (m : ℤ) - ((n / 2 : ℕ) : ℤ) := by
            omega
          rw [hcast]
        · omega
        · omega
  · norm_num [find_rt_pos, np_argmin, pyRange, List.range_succ]
    decide

/-- C6 (witness): the theorem instantiated at the claim's example,
`RT = 21`, `rt_list = [0,10,20,30,40]`, `n_cycles = 3`. -/
theorem find_rt_pos_centered_window_witness :
    (∃ s : ℕ,
      find_rt_pos 21 [0, 10, 20, 30, 40] 3
          = (List.range 3).map (fun i : ℕ => (s : ℤ) + (i : ℤ))
      ∧ s + 3 ≤ ([0, 10, 20, 30, 40] : List ℚ).length
      ∧ (s : ℤ) = max 0 (min
            ((np_argmin (([0, 10, 20, 30, 40] : List ℚ).map
              (fun x => |x - 21|)) : ℤ) - ((3 / 2 : ℕ) : ℤ))
            ((([0, 10, 20, 30, 40] : List ℚ).length : ℤ) - (3 : ℤ)))
      ∧ ∀ j, j < ([0, 10, 20, 30, 40] : List ℚ).length →
          |([0, 10, 20, 30, 40] : List ℚ).getD
              (np_argmin (([0, 10, 20, 30, 40] : List ℚ).map
                (fun x => |x - 21|))) 21 - 21|
            ≤ |([0, 10, 20, 30, 40] : List ℚ).getD j 21 - 21|)
    ∧ find_rt_pos 21 [0, 10, 20, 30, 40] 3 = [1, 2, 3] :=
  find_rt_pos_centered_window 21 [0, 10, 20, 30, 40] 3 (by norm_num)
    (by norm_num)

/-- C10: for every nonempty `rt_list` and `n_cycles ≥ 1`, `find_rt_pos`
returns exactly `n_cycles` consecutive integer indices, and when
`len(rt_list) < n_cycles` the returned run necessarily contains an index
outside the valid range `[0, len)` (negative, or `≥ len`): the clamping
does not guard against chromatograms shorter than the window. -/
theorem find_rt_pos_short_chromatogram (RT : ℚ) (l : List ℚ) (n : ℕ)
    (h1 : 1 ≤ n) (h0 : l ≠ []) :
    (find_rt_pos RT l n).length = n
    ∧ (∃ s : ℤ, find_rt_pos RT l n = (List.range n).map (fun i : ℕ => s + (i : ℤ)))
    ∧ (l.length < n →
        ∃ i ∈ find_rt_pos RT l n, i < 0 ∨ (l.length : ℤ) ≤ i) := by
  set m := np_argmin (l.map (fun x => |x - RT|)) with hm
  simp only [find_rt_pos, ← hm, find_rt_pos_end_eq]
  by_cases ha : (m : ℤ) - ((n / 2 : ℕ) : ℤ) < 0
  · rw [if_pos ha, pyRange_map 0 n n (by omega)]
    refine ⟨by rw [List.length_map, List.length_range], ⟨0, rfl⟩, ?_⟩
    intro hshort
    have hmem : (0 : ℤ) + ((n - 1 : ℕ) : ℤ)
        ∈ (List.range n).map (fun i : ℕ => (0 : ℤ) + (i : ℤ)) :=
      List.mem_map.mpr ⟨n - 1, List.mem_range.mpr (by omega), rfl⟩
    exact ⟨_, hmem, Or.inr (by omega)⟩
  · rw [if_neg ha]
    by_cases hb : (l.length : ℤ) < (m : ℤ) - ((n / 2 : ℕ) : ℤ) + (n : ℤ)
    · rw [if_pos hb, pyRange_map ((l.length : ℤ) - n) (l.length) n (by ring)]
      refine ⟨by rw [List.length_map, List.length_range],
        ⟨(l.length : ℤ) - n, rfl⟩, ?_⟩
      intro hshort
      have hmem : ((l.length : ℤ) - n) + ((0 : ℕ) : ℤ)
          ∈ (List.range n).map (fun i : ℕ => ((l.length : ℤ) - n) + (i : ℤ)) :=
        List.mem_map.mpr ⟨0, List.mem_range.mpr (by omega), rfl⟩
      exact ⟨_, hmem, Or.inl (by omega)⟩
    · rw [if_neg hb, pyRange_map ((m : ℤ) - ((n / 2 : ℕ) : ℤ))
        ((m : ℤ) - ((n / 2 : ℕ) : ℤ) + (n : ℤ)) n (by ring)]
      refine ⟨by rw [List.length_map, List.length_range],
        ⟨(m : ℤ) - ((n / 2 : ℕ) : ℤ), rfl⟩, ?_⟩
      intro hshort
      omega

/-- C10 (witness): instantiation at `RT = 0`, `rt_list = [0, 10]`,
`n_cycles = 5` — a chromatogram of 2 cycles asked for a 5-cycle window. -/
theorem find_rt_pos_short_chromatogram_witness :
    (find_rt_pos 0 [0, 10] 5).length = 5
    ∧ (∃ s : ℤ, find_rt_pos 0 [0, 10] 5
        = (List.range 5).map (fun i : ℕ => s + (i : ℤ)))
    ∧ (([0, 10] : List ℚ).length < 5 →
        ∃ i ∈ find_rt_pos 0 [0, 10] 5, i < 0
          ∨ ((([0, 10] : List ℚ).length : ℤ) ≤ i)) :=
  find_rt_pos_short_chromatogram 0 [0, 10] 5 (by norm_num) (by simp)

/-!
Claim C9 — `adjust_size`.
-/

/-- C9 (counterexample): on `[[3,2],[1,4],[0,0]]` with `n_frags = 1`, the
two top rows tie at row sum 5, and `adjust_size` keeps row 1 (`[1,4]`),
not row 0 (`[3,2]`) — the ascending stable argsort is reversed, so ties
are broken by descending original position, not by original order. -/
theorem adjust_size_tie_breaks_descending :
    adjust_size [[3, 2], [1, 4], [0, 0]] 1 = [[1, 4]]
    ∧ adjust_size [[3, 2], [1, 4], [0, 0]] 1 ≠ [[3, 2]] := by
  have h : adjust_size [[3, 2], [1, 4], [0, 0]] 1 = [[1, 4]] := by
    norm_num [adjust_size, np_argsort, List.insertionSort, List.orderedInsert,
      List.range_succ]
  refine ⟨h, ?_⟩
  rw [h]
  intro hcontra
  norm_num at hcontra

/-- C9 (amended): with more rows than `n_frags`, `adjust_size` returns
exactly `n_frags` rows of the input, ordered by weakly descending row sum,
and every returned row's sum is at least the sum of every non-selected
row; ties between equal row sums are broken by descending (not original)
row order, as the counterexample records. -/
theorem adjust_size_topN (m : List (List ℚ)) (n : ℕ) (h : n < m.length) :
    (adjust_size m n).length = n
    ∧ (∀ r ∈ adjust_size m n, r ∈ m)
    ∧ ((adjust_size m n).map List.sum).Pairwise (fun a b => b ≤ a)
    ∧ ∀ i ∈ (np_argsort (m.map List.sum)).reverse.drop n,
        ∀ r ∈ adjust_size m n, (m.map List.sum).getD i 0 ≤ r.sum := by
  classical
  set sums := m.map List.sum with hsums
  haveI : IsTotal ℕ (fun i j => sums.getD i 0 ≤ sums.getD j 0) :=
    ⟨fun i j => le_total _ _⟩
  haveI : IsTrans ℕ (fun i j => sums.getD i 0 ≤ sums.getD j 0) :=
    ⟨fun a b c hab hbc => le_trans hab hbc⟩
  have hperm : (np_argsort sums).Perm (List.range m.length) := by
    have := List.perm_insertionSort
      (fun i j => sums.getD i 0 ≤ sums.getD j 0) (List.range sums.length)
    simpa [np_argsort, hsums] using this
  have hsorted : (np_argsort sums).Pairwise
      (fun i j => sums.getD i 0 ≤ sums.getD j 0) := by
    have := List.sorted_insertionSort
      (fun i j => sums.getD i 0 ≤ sums.getD j 0) (List.range sums.length)
    simpa [np_argsort, List.Sorted] using this
  have hrev : (np_argsort sums).reverse.Pairwise
      (fun i j => sums.getD j 0 ≤ sums.getD i 0) :=
    List.pairwise_reverse.mpr hsorted
  have hlenrev : (np_argsort sums).reverse.length = m.length := by
    rw [List.length_reverse, hperm.length_eq, List.length_range]
  have hmemrev : ∀ i ∈ (np_argsort sums).reverse, i < m.length := by
    intro i hi
    rw [List.mem_reverse] at hi
    exact List.mem_range.mp (hperm.mem_iff.mp hi)
  have hgsum : ∀ i, i < m.length → sums.getD i 0 = (m.getD i []).sum := by
    intro i hi
    rw [hsums, List.getD_eq_getElem _ _ (by simpa using hi),
      List.getElem_map, List.getD_eq_getElem _ _ hi]
  have hout : adjust_size m n
      = ((np_argsort sums).reverse.take n).map (fun i => m.getD i []) := by
    rw [adjust_size, if_pos h]
  refine ⟨?_, ?_, ?_, ?_⟩
  · rw [hout, List.length_map, List.length_take, hlenrev]
    omega
  · intro r hr
    rw [hout] at hr
    obtain ⟨i, hiT, rfl⟩ := List.mem_map.mp hr
    have hi : i < m.length := hmemrev i (List.mem_of_mem_take hiT)
    rw [List.getD_eq_getElem _ _ hi]
    exact List.getElem_mem _
  · rw [hout, List.map_map, List.pairwise_map]
    have hT : ((np_argsort sums).reverse.take n).Pairwise
        (fun i j => sums.getD j 0 ≤ sums.getD i 0) :=
      hrev.sublist (List.take_sublist n _)
    refine hT.imp_of_mem ?_
    intro a b ha hb hab
    have ha' : a < m.length := hmemrev a (List.mem_of_mem_take ha)
    have hb' : b < m.length := hmemrev b (List.mem_of_mem_take hb)
    simp only [Function.comp_apply]
    rw [← hgsum a ha', ← hgsum b hb']
    exact hab
  · intro i hidrop r hr
    rw [hout] at hr
    obtain ⟨a, haT, rfl⟩ := List.mem_map.mp hr
    have hsplit := List.take_append_drop n (np_argsort sums).reverse
    have hpw : ((np_argsort sums).reverse.take n
        ++ (np_argsort sums).reverse.drop n).Pairwise
        (fun i j => sums.getD j 0 ≤ sums.getD i 0) := by
      rw [hsplit]
      exact hrev
    have hdom := (List.pairwise_append.mp hpw).2.2 a haT i hidrop
    have ha' : a < m.length := hmemrev a (List.mem_of_mem_take haT)
    rw [← hgsum a ha']
    exact hdom

/-- C9 (witness for the amended theorem): instantiation at the matrix
`[[3],[1],[2]]` with `n_frags = 2`. -/
theorem adjust_size_topN_witness :
    (adjust_size [[3], [1], [2]] 2).length = 2
    ∧ (∀ r ∈ adjust_size [[3], [1], [2]] 2, r ∈ ([[3], [1], [2]] : List (List ℚ)))
    ∧ ((adjust_size [[3], [1], [2]] 2).map List.sum).Pairwise (fun a b => b ≤ a)
    ∧ ∀ i ∈ (np_argsort (([[3], [1], [2]] : List (List ℚ)).map List.sum)).reverse.drop 2,
        ∀ r ∈ adjust_size [[3], [1], [2]] 2,
          (([[3], [1], [2]] : List (List ℚ)).map List.sum).getD i 0 ≤ r.sum :=
  adjust_size_topN [[3], [1], [2]] 2 (by norm_num)

/-!
Claims C1–C4 — `load_rawdata` and `calc_win_id`.
-/

/-- The leading-artifact correction never modifies anything: its second
condition is the Python comparison `each_ms2.rt_list == 0` of a list with
an integer, which is always `False`. -/
lemma lead_fix_eq (ms1 : MS1_Chrom) (ms2 : List MS2_Chrom) :
    lead_fix ms1 ms2 = ms2 := by
  simp [lead_fix, py_list_eq_int]

/-- The trailing-cycle correction preserves the per-chromatogram invariant
`len(rt_list) = len(spectra)`. -/
lemma trail_fix_inv (ms1 : MS1_Chrom) (ms2 : List MS2_Chrom)
    (h1 : ms1.rt_list.length = ms1.spectra.length)
    (h2 : ∀ c ∈ ms2, c.rt_list.length = c.spectra.length) :
    (trail_fix ms1 ms2).1.rt_list.length = (trail_fix ms1 ms2).1.spectra.length
    ∧ ∀ c ∈ (trail_fix ms1 ms2).2,
        c.rt_list.length = c.spectra.length := by
  rw [trail_fix]
  cases hf : ms2.find? (fun c =>
      decide ((ms1.rt_list.length : ℤ) - (c.rt_list.length : ℤ) = 1)) with
  | none => exact ⟨h1, h2⟩
  | some c =>
    refine ⟨by simp [List.length_dropLast, h1], ?_⟩
    intro d hd
    simp only [List.mem_map] at hd
    obtain ⟨d0, hd0, rfl⟩ := hd
    have hd0inv := h2 d0 hd0
    split
    · simp only [List.length_dropLast]
      omega
    · exact hd0inv

/-- The scan loop preserves the invariant `len(rt_list) = len(spectra)` on
MS1 and on every MS2 window chromatogram. -/
lemma scan_loop_inv (wins : List (ℚ × ℚ)) (a b : ℚ) :
    ∀ (scans : List Scan) (idx : ℕ) (rt : Option ℚ) (ms1 : MS1_Chrom)
      (ms2 : List MS2_Chrom) (out : MS1_Chrom × List MS2_Chrom),
      scan_loop wins a b idx rt ms1 ms2 scans = some out →
      ms1.rt_list.length = ms1.spectra.length →
      (∀ c ∈ ms2, c.rt_list.length = c.spectra.length) →
      out.1.rt_list.length = out.1.spectra.length
      ∧ ∀ c ∈ out.2, c.rt_list.length = c.spectra.length := by
  intro scans
  induction scans with
  | nil =>
    intro idx rt ms1 ms2 out h h1 h2
    simp only [scan_loop, Option.some.injEq] at h
    rw [← h]
    exact ⟨h1, h2⟩
  | cons s rest ih =>
    intro idx rt ms1 ms2 out h h1 h2
    simp only [scan_loop] at h
    by_cases hl1 : s.level = 1
    · rw [if_pos hl1] at h
      exact ih _ _ _ _ _ h (by simp [h1]) h2
    · rw [if_neg hl1] at h
      by_cases hl2 : s.level = 2
      · rw [if_pos hl2] at h
        rcases hscrut : (if idx = 0 then some (0 : ℚ) else rt) with _ | rtv
        · rw [hscrut] at h
          simp at h
        · rw [hscrut] at h
          simp only [] at h
          by_cases hcond : 0 ≤ pyNorm (calc_win_id s.precursor_mz wins)
                ms2.length
              ∧ pyNorm (calc_win_id s.precursor_mz wins) ms2.length
                < (ms2.length : ℤ)
          · rw [if_pos hcond] at h
            refine ih _ _ _ _ _ h h1 ?_
            intro c hc
            rcases List.mem_or_eq_of_mem_set hc with hc' | rfl
            · exact h2 c hc'
            · have hjlen : (pyNorm (calc_win_id s.precursor_mz wins)
                  ms2.length).toNat < ms2.length := by omega
              have hmem : ms2.getD (pyNorm (calc_win_id s.precursor_mz wins)
                  ms2.length).toNat ⟨0, 0, 0, [], []⟩ ∈ ms2 := by
                rw [List.getD_eq_getElem _ _ hjlen]
                exact List.getElem_mem _
              have hi := h2 _ hmem
              simp only [append_entry, List.length_append, List.length_cons,
                List.length_nil]
              omega
          · rw [if_neg hcond] at h
            simp at h
      · rw [if_neg hl2] at h
        exact ih _ _ _ _ _ h h1 h2

/-- C2 (amended): every chromatogram returned by `load_rawdata` satisfies
`len(rt_list) = len(spectra)`, on MS1 and on every MS2 window. -/
theorem load_rawdata_len_invariant (scans : List Scan)
    (wins : List (ℚ × ℚ)) (a b : ℚ) (ms1 : MS1_Chrom)
    (ms2 : List MS2_Chrom)
    (h : load_rawdata scans wins a b = some (ms1, ms2)) :
    ms1.rt_list.length = ms1.spectra.length
    ∧ ∀ c ∈ ms2, c.rt_list.length = c.spectra.length := by
  simp only [load_rawdata] at h
  cases hsl : scan_loop wins a b 0 none ⟨[], []⟩
      (wins.enum.map (fun p => ⟨p.1, p.2.1, p.2.2, [], []⟩)) scans with
  | none =>
    rw [hsl] at h
    simp at h
  | some r =>
    rw [hsl] at h
    simp only [Option.map_some', Option.some.injEq] at h
    rw [lead_fix_eq] at h
    have hr := scan_loop_inv wins a b scans 0 none ⟨[], []⟩ _ r hsl (by simp)
      (by
        intro c hc
        simp only [List.mem_map] at hc
        obtain ⟨p, _, rfl⟩ := hc
        rfl)
    have hinv := trail_fix_inv r.1 r.2 hr.1 hr.2
    rw [h] at hinv
    exact hinv

/-- C2 (witness): instantiation on the one-scan stream `[MS1 at rt 1]`
with a single window `[400, 410)`; the build returns MS1 `⟨[], []⟩` (the
trailing correction pops the lone MS1 cycle) and one empty MS2 window. -/
theorem load_rawdata_len_invariant_witness :
    (MS1_Chrom.mk [] []).rt_list.length = (MS1_Chrom.mk [] []).spectra.length
    ∧ ∀ c ∈ [MS2_Chrom.mk 0 400 410 [] []],
        c.rt_list.length = c.spectra.length :=
  load_rawdata_len_invariant [⟨1, 1, 0, [], []⟩] [(400, 410)] 0 1000
    ⟨[], []⟩ [⟨0, 400, 410, [], []⟩]
    (by norm_num [load_rawdata, scan_loop, filter_spectrum, lead_fix,
      trail_fix, py_list_eq_int, calc_win_id, bisect_right, pyNorm,
      append_entry, List.countP_cons, List.find?])

/-- C2 (counterexample): the cycle-count alignment part of the claim fails
on the stream of two MS1 scans and no MS2 scans: `load_rawdata` returns
MS1 with 2 cycles while the single MS2 window chromatogram has 0, and
neither boundary correction fires. -/
theorem load_rawdata_not_aligned :
    (load_rawdata [⟨1, 1, 0, [], []⟩, ⟨1, 2, 0, [], []⟩] [(400, 410)]
        0 1000).map
      (fun r => (r.1.rt_list.length, r.2.map (fun c => c.rt_list.length)))
      = some (2, [0])
    ∧ (2 : ℕ) ≠ 0 := by
  constructor
  · norm_num [load_rawdata, scan_loop, filter_spectrum, lead_fix,
      trail_fix, py_list_eq_int, calc_win_id, bisect_right, pyNorm,
      append_entry, List.countP_cons, List.find?]
  · decide

/-- C3 (code bug): on a stream that begins with one MS2 scan before the
first MS1 scan (leading MS2, then one complete [MS1, MS2] cycle, one
window `[400, 410)`, precursor 405), the MS2 window chromatogram keeps
both entries — the synthetic leading entry with retention time 0 included
— while MS1 has one, satisfying exactly the drop condition the
specification describes; the source's condition `each_ms2.rt_list == 0`
compares a list with an integer and is always `False`, so the documented
drop never happens. -/
theorem lead_artifact_not_dropped :
    (load_rawdata [⟨2, 9, 405, [], []⟩, ⟨1, 1, 0, [], []⟩,
        ⟨2, 9, 405, [], []⟩] [(400, 410)] 0 1000).map
      (fun r => (r.1.rt_list, r.2.map (fun c => c.rt_list)))
      = some ([60], [[0, 60]]) := by
  norm_num [load_rawdata, scan_loop, filter_spectrum, lead_fix, trail_fix,
    py_list_eq_int, calc_win_id, bisect_right, pyNorm, append_entry,
    List.countP_cons, List.find?]

/-- C4 (counterexample): on the stream `[MS1 at rt 1, MS2 at rt 2]` with
window `[400, 410)` and precursor 405, the MS2 entry is appended with
retention time 60 — the value carried over from the preceding MS1 scan
(`60 * 1`) — not with the MS2 scan's own retention time (2, or 120 in
seconds), contradicting the claim that every non-leading MS2 scan uses its
own retention time. -/
theorem load_rawdata_ms2_rt_carried :
    (load_rawdata [⟨1, 1, 0, [], []⟩, ⟨2, 2, 405, [], []⟩] [(400, 410)]
        0 1000).map (fun r => r.2.map (fun c => c.rt_list))
      = some [[60]]
    ∧ (60 : ℚ) ≠ 2 ∧ (60 : ℚ) ≠ 120 := by
  refine ⟨?_, by norm_num, by norm_num⟩
  norm_num [load_rawdata, scan_loop, filter_spectrum, lead_fix, trail_fix,
    py_list_eq_int, calc_win_id, bisect_right, pyNorm, append_entry,
    List.countP_cons, List.find?]

/-- C4 (amended): in the scan loop, a level-2 scan at position `idx ≠ 0`
is appended to its window chromatogram with the carried retention-time
value `rtv` (last assigned by a level-1 scan), never with the scan's own
`rt` field, and the carried value is left unchanged; only at `idx = 0` is
the synthetic retention time 0 assigned (and it also becomes the carried
value). -/
theorem scan_loop_ms2_uses_carried_rt (wins : List (ℚ × ℚ)) (a b : ℚ)
    (idx : ℕ) (rtv : ℚ) (rt0 : Option ℚ) (ms1 : MS1_Chrom)
    (ms2 : List MS2_Chrom) (s : Scan) (rest : List Scan)
    (hs2 : s.level = 2)
    (hj : 0 ≤ pyNorm (calc_win_id s.precursor_mz wins) ms2.length
        ∧ pyNorm (calc_win_id s.precursor_mz wins) ms2.length
          < (ms2.length : ℤ)) :
    (idx ≠ 0 →
      scan_loop wins a b idx (some rtv) ms1 ms2 (s :: rest)
        = scan_loop wins a b (idx + 1) (some rtv) ms1
            (ms2.set (pyNorm (calc_win_id s.precursor_mz wins)
                ms2.length).toNat
              (append_entry
                (ms2.getD (pyNorm (calc_win_id s.precursor_mz wins)
                    ms2.length).toNat ⟨0, 0, 0, [], []⟩)
                rtv (filter_spectrum s.mz_array s.intensity_array a b)))
            rest)
    ∧ (scan_loop wins a b 0 rt0 ms1 ms2 (s :: rest)
        = scan_loop wins a b 1 (some 0) ms1
            (ms2.set (pyNorm (calc_win_id s.precursor_mz wins)
                ms2.length).toNat
              (append_entry
                (ms2.getD (pyNorm (calc_win_id s.precursor_mz wins)
                    ms2.length).toNat ⟨0, 0, 0, [], []⟩)
                0 (filter_spectrum s.mz_array s.intensity_array a b)))
            rest) := by
  have hne1 : ¬s.level = 1 := by omega
  constructor
  · intro hidx
    simp only [scan_loop]
    rw [if_neg hne1, if_pos hs2, if_neg hidx]
    simp only [] 
    rw [if_pos hj]
  · simp only [scan_loop]
    rw [if_neg hne1, if_pos hs2]
    simp only [reduceIte]
    rw [if_pos hj]

/-- C4 (witness for the amended theorem): a level-2 scan with its own
`rt = 9` at position `idx = 3` is appended with the carried value 7; at
position 0 it is appended with the synthetic value 0. -/
theorem scan_loop_ms2_uses_carried_rt_witness :
    ((3 : ℕ) ≠ 0 →
      scan_loop [(400, 410)] 0 1000 3 (some 7) ⟨[], []⟩
          [⟨0, 400, 410, [], []⟩] [⟨2, 9, 405, [], []⟩]
        = scan_loop [(400, 410)] 0 1000 (3 + 1) (some 7) ⟨[], []⟩
            ([⟨0, 400, 410, [], []⟩].set
              (pyNorm (calc_win_id (Scan.mk 2 9 405 [] []).precursor_mz
                  [(400, 410)]) ([⟨0, 400, 410, [], []⟩] :
                    List MS2_Chrom).length).toNat
              (append_entry
                (([⟨0, 400, 410, [], []⟩] : List MS2_Chrom).getD
                  (pyNorm (calc_win_id (Scan.mk 2 9 405 [] []).precursor_mz
                    [(400, 410)]) ([⟨0, 400, 410, [], []⟩] :
                      List MS2_Chrom).length).toNat ⟨0, 0, 0, [], []⟩)
                7 (filter_spectrum (Scan.mk 2 9 405 [] []).mz_array
                    (Scan.mk 2 9 405 [] []).intensity_array 0 1000)))
            [])
    ∧ (scan_loop [(400, 410)] 0 1000 0 none ⟨[], []⟩
          [⟨0, 400, 410, [], []⟩] [⟨2, 9, 405, [], []⟩]
        = scan_loop [(400, 410)] 0 1000 1 (some 0) ⟨[], []⟩
            ([⟨0, 400, 410, [], []⟩].set
              (pyNorm (calc_win_id (Scan.mk 2 9 405 [] []).precursor_mz
                  [(400, 410)]) ([⟨0, 400, 410, [], []⟩] :
                    List MS2_Chrom).length).toNat
              (append_entry
                (([⟨0, 400, 410, [], []⟩] : List MS2_Chrom).getD
                  (pyNorm (calc_win_id (Scan.mk 2 9 405 [] []).precursor_mz
                    [(400, 410)]) ([⟨0, 400, 410, [], []⟩] :
                      List MS2_Chrom).length).toNat ⟨0, 0, 0, [], []⟩)
                0 (filter_spectrum (Scan.mk 2 9 405 [] []).mz_array
                    (Scan.mk 2 9 405 [] []).intensity_array 0 1000)))
            []) :=
  scan_loop_ms2_uses_carried_rt [(400, 410)] 0 1000 3 7 none ⟨[], []⟩
    [⟨0, 400, 410, [], []⟩] ⟨2, 9, 405, [], []⟩ [] rfl
    (by norm_num [pyNorm, calc_win_id, bisect_right, List.countP_cons])

/-- C1 (amended): for a precursor m/z strictly below the first window's
lower bound in an ascending window table, `calc_win_id` does not fail: it
returns `-1`, and Python's negative indexing resolves `-1` to the last
position `len - 1` of the MS2 chromatogram list, so the scan is appended
to the last window's chromatogram and the build continues. -/
theorem calc_win_id_below_first_window (p : ℚ) (w : ℚ × ℚ)
    (rest : List (ℚ × ℚ))
    (hsort : ((w :: rest).map Prod.fst).Sorted (· ≤ ·)) (hp : p < w.1) :
    calc_win_id p (w :: rest) = -1
    ∧ ∀ len : ℕ, 1 ≤ len →
        pyNorm (calc_win_id p (w :: rest)) len = (len : ℤ) - 1 := by
  have hcount : bisect_right (w.1 :: rest.map Prod.fst) p = 0 := by
    apply List.countP_eq_zero.mpr
    intro y hy
    simp only [decide_eq_true_eq, not_le]
    rcases List.mem_cons.mp hy with rfl | hy'
    · exact hp
    · have hw := (List.pairwise_cons.mp (by simpa using hsort)).1 y hy'
      exact lt_of_lt_of_le hp hw
  have hid : calc_win_id p (w :: rest) = -1 := by
    simp [calc_win_id, List.map_cons, hcount]
  refine ⟨hid, ?_⟩
  intro len hlen
  rw [hid, pyNorm, if_pos (by norm_num)]
  ring

/-- C1 (witness for the amended theorem): precursor 300 against the
table `[[400, 410], [410, 420]]`. -/
theorem calc_win_id_below_first_window_witness :
    calc_win_id 300 [(400, 410), (410, 420)] = -1
    ∧ ∀ len : ℕ, 1 ≤ len →
        pyNorm (calc_win_id 300 [(400, 410), (410, 420)]) len
          = (len : ℤ) - 1 :=
  calc_win_id_below_first_window 300 (400, 410) [(410, 420)]
    (by norm_num [List.sorted_cons]) (by norm_num)

/-- C1 (counterexample): on the stream `[MS1, MS2(405), MS2(300)]` with
windows `[400,410)` and `[410,420)`, the scan with precursor 300 — below
the first window's lower bound — does not abort the build: `load_rawdata`
returns normally and that scan's entry lands in the LAST window's
chromatogram (window 1), via `calc_win_id = -1` and Python negative
indexing, contradicting the claimed `OutOfRange` failure. -/
theorem load_rawdata_below_range_appends_to_last_window :
    (load_rawdata [⟨1, 1, 0, [], []⟩, ⟨2, 9, 405, [], []⟩,
        ⟨2, 9, 300, [], []⟩] [(400, 410), (410, 420)] 0 1000).map
      (fun r => r.2.map (fun c => c.rt_list))
      = some [[60], [60]]
    ∧ (300 : ℚ) < 400 := by
  constructor
  · norm_num [load_rawdata, scan_loop, filter_spectrum, lead_fix,
      trail_fix, py_list_eq_int, calc_win_id, bisect_right, pyNorm,
      append_entry, List.countP_cons, List.find?, List.enum,
      List.enumFrom]
  · norm_num
